import Mathlib

/-!
Verification of the Aladdin scoring/backtesting core.

Each Python component is shallowly embedded as executable Lean definitions:
float arithmetic is modelled over the rationals (and over the reals where
square roots and logarithms appear), and IEEE NaN / non-finite values are
modelled as `Option.none`.  DataFrames become index-functions `Nat -> Nat ->
Option _` (rows = dates, columns = assets) or lists of records; pandas
NaN-skipping reductions are modelled explicitly.
-/

/-- Association-list lookup by string key, mirroring a Python dict lookup
(first binding wins, as dict keys are unique). -/
def alookup {α : Type} (k : String) : List (String × α) → Option α
  | [] => none
  | p :: ps => if p.1 = k then some p.2 else alookup k ps

/-- A conjunction of `p` over the elements of a list (no binder form). -/
def ListAll {α : Type} (p : α → Prop) : List α → Prop
  | [] => True
  | x :: xs => p x ∧ ListAll p xs

/-! ## StrategyLoader (src/src/scoring_engine/strategy_loader.py)

`validate_strategy_weights`, lines 105-129: strip zero weights, and when the
sum of absolute weights is not within 0.001 of 1, divide each weight by that
sum.  Returning `none` models the `return False` on a zero weight sum (the
missing-'weights'-key case is outside the weights data model). -/

/-- A strategy's weight dictionary: factor name -> signed weight. -/
abbrev Weights := List (String × ℚ)

/-- Line 114: `weights = {k: v for k, v in weights.items() if v != 0}`. -/
def stripZeroWeights (ws : Weights) : Weights :=
  ws.filter (fun p => decide (p.2 ≠ 0))

/-- Line 116: `total_weight = sum(abs(v) for v in weights.values())`. -/
def totalAbsWeight (ws : Weights) : ℚ :=
  (ws.map (fun p => |p.2|)).sum

/-- Lines 113-129 of strategy_loader.py: zero weights stripped; `none` when
the absolute-weight sum is 0; weights divided by the sum only when the sum is
more than 0.001 away from 1. -/
def validate_strategy_weights (ws : Weights) : Option Weights :=
  let ws' := stripZeroWeights ws
  let total := totalAbsWeight ws'
  if total = 0 then none
  else if |total - 1| > 1 / 1000 then
    some (ws'.map (fun p => (p.1, p.2 / total)))
  else some ws'

/-! ## MarketRegimeDetector (src/src/scoring_engine/market_regime.py)

`analyze_market_condition`, historical-data branch (lines 49-115), for a
non-empty benchmark (bitcoin) price series in chronological order.  The
float `volatility` diagnostic (a standard deviation, lines 76-77) plays no
role in the regime decision and is not carried in the verdict record. -/

structure RegimeVerdict where
  regime : String
  suggested_strategy : String
  btc_change_7d : ℚ
  btc_change_30d : ℚ
  deriving DecidableEq

/-- Lines 68-73 of market_regime.py: the `k`-day percentage change
`(current_price / price_kd - 1) * 100`, 0 when the reference price is not
positive.  `prices.iloc[-k]` is `prices[len - k]`, falling back to
`prices.iloc[0]` when fewer than `k` points exist (lines 69-70). -/
def btcChange (k : ℕ) (prices : List ℚ) : ℚ :=
  let current := prices.getD (prices.length - 1) 0
  let pk := if k ≤ prices.length then prices.getD (prices.length - k) 0
            else prices.getD 0 0
  if 0 < pk then (current / pk - 1) * 100 else 0

/-- Lines 57-104 of market_regime.py: the short-history cold-start default,
then the four-branch regime decision (first match wins). -/
def analyze_market_condition (prices : List ℚ) : RegimeVerdict :=
  if prices.length < 30 then
    { regime := "neutral", suggested_strategy := "balanced",
      btc_change_7d := 0, btc_change_30d := 0 }
  else if 20 < btcChange 30 prices then
    { regime := "bull", suggested_strategy := "momentum_growth",
      btc_change_7d := btcChange 7 prices, btc_change_30d := btcChange 30 prices }
  else if btcChange 30 prices < -20 then
    { regime := "bear", suggested_strategy := "value_defensive",
      btc_change_7d := btcChange 7 prices, btc_change_30d := btcChange 30 prices }
  else if 5 < btcChange 7 prices then
    { regime := "bull", suggested_strategy := "momentum_growth",
      btc_change_7d := btcChange 7 prices, btc_change_30d := btcChange 30 prices }
  else if btcChange 7 prices < -5 then
    { regime := "bear", suggested_strategy := "value_defensive",
      btc_change_7d := btcChange 7 prices, btc_change_30d := btcChange 30 prices }
  else
    { regime := "neutral", suggested_strategy := "balanced",
      btc_change_7d := btcChange 7 prices, btc_change_30d := btcChange 30 prices }

/-- A 30-point history whose 30-day change is exactly -20% and whose last
seven days are flat. -/
def regimeMinus20Prices : List ℚ := 100 :: List.replicate 29 80

/-- A 30-point history whose 30-day change is -30%. -/
def regimeMinus30Prices : List ℚ := 100 :: List.replicate 29 70

/-! ## Benchmark column fallback (src/src/backtesting/engine.py lines 86-87)

`btc_col = 'bitcoin' if 'bitcoin' in self.daily_returns.columns else
self.daily_returns.columns[0]`; `benchmark_ret = self.daily_returns[btc_col]`.
Columns are identified by name; the returns matrix is indexed by column
position, so a name is resolved to the position of its first occurrence. -/

def benchmark_col (cols : List String) : Option String :=
  if "bitcoin" ∈ cols then some "bitcoin" else cols.head?

/-- The benchmark daily-return series selected by `run_backtest`. -/
def benchmark_returns (cols : List String) (daily_ret : ℕ → ℕ → Option ℚ)
    (d : ℕ) : Option ℚ :=
  (benchmark_col cols).bind (fun c => daily_ret d (cols.indexOf c))

/-! ## ScoreCalculator (src/src/scoring_engine/score_calculator.py)

`calculate_scores`, lines 18-96.  A factor panel is the `factors_df`
DataFrame: a global column list plus one record per asset.  The `verdict`
column (a fixed-bin `pd.cut` of `score`, lines 71-75) is a pure relabelling
of `score` and is not carried in the record. -/

structure FactorRow where
  coin_id : String
  symbol : String
  vals : List (String × ℚ)
  deriving DecidableEq

structure Panel where
  cols : List String
  rows : List FactorRow
  deriving DecidableEq

/-- The z-score of factor `f` for one asset row (`factors_df.loc[idx, f]`). -/
def fval (r : FactorRow) (f : String) : ℚ := (alookup f r.vals).getD 0

/-- Lines 46-50: the strategy weights present in the panel, in weight-dict
iteration order (missing factors are skipped, contributing 0). -/
def presentWeights (ws : Weights) (cols : List String) : Weights :=
  ws.filter (fun p => decide (p.1 ∈ cols))

/-- Lines 42-54: `raw_score += factors_df[factor].values * weight` over the
factors present in both the strategy and the panel. -/
def raw_score (ws : Weights) (cols : List String) (r : FactorRow) : ℚ :=
  (presentWeights ws cols).foldl (fun acc p => acc + fval r p.1 * p.2) 0

/-- Line 83: `contributions = {f: factors_df.loc[idx, f] * weights[f] for f
in used_factors}` (dict insertion order = weight order). -/
def contributions (ws : Weights) (cols : List String) (r : FactorRow) :
    List (String × ℚ) :=
  (presentWeights ws cols).map (fun p => (p.1, fval r p.1 * p.2))

/-- Line 85: `max(contributions, key=contributions.get)` — the first key
attaining the maximal (signed) value, `none` for the empty dict (where
Python `max` raises). -/
def argmaxFirst : List (String × ℚ) → Option (String × ℚ)
  | [] => none
  | p :: ps =>
    match argmaxFirst ps with
    | none => some p
    | some q => if q.2 > p.2 then some q else some p

/-- The minimum of `raw_score` (`raw_score.min()`; 0 on the empty list,
unused there). -/
def listMin : List ℚ → ℚ
  | [] => 0
  | x :: xs => xs.foldl min x

/-- The maximum of `raw_score` (`raw_score.max()`; 0 on the empty list,
unused there). -/
def listMax : List ℚ → ℚ
  | [] => 0
  | x :: xs => xs.foldl max x

/-- Lines 59-66: min-max scaling of a raw score to [0, 100], 50 when all
raw scores coincide (`max_s > min_s` fails). -/
def scaleScore (mn mx rw : ℚ) : ℚ :=
  if mn < mx then (rw - mn) / (mx - mn) * 100 else 50

/-- Line 69: `rank(ascending=False, method='min')` — one plus the number of
strictly larger scores. -/
def rankOf (scores : List ℚ) (s : ℚ) : ℕ :=
  1 + (scores.filter (fun t => decide (s < t))).length

structure ScoredRow where
  coin_id : String
  symbol : String
  raw : ℚ
  score : ℚ
  rank : ℕ
  primary_driver : Option String
  deriving DecidableEq

/-- Lines 18-96 of score_calculator.py: empty result on an empty panel or an
empty weight dict; otherwise weighted raw scores, min-max scaled scores,
min-method descending ranks, signed-argmax primary drivers, and a final
descending sort on `score` (line 91). -/
def calculate_scores (panel : Panel) (ws : Weights) : List ScoredRow :=
  if panel.rows = [] ∨ ws = [] then []
  else
    let raws := panel.rows.map (raw_score ws panel.cols)
    let mn := listMin raws
    let mx := listMax raws
    let allScores := raws.map (scaleScore mn mx)
    let scored := panel.rows.map (fun r =>
      let rw := raw_score ws panel.cols r
      let sc := scaleScore mn mx rw
      { coin_id := r.coin_id, symbol := r.symbol, raw := rw, score := sc,
        rank := rankOf allScores sc,
        primary_driver := (argmaxFirst (contributions ws panel.cols r)).map Prod.fst })
    List.insertionSort (fun a b => b.score ≤ a.score) scored

/-! ## AssetRanker (src/src/scoring_engine/ranking.py)

`create_combined_ranking`, lines 14-59: inner merge of the long and short
score tables on `coin_id` (left-key order, pandas `how='inner'`), net score,
rank difference, `np.select` signal, descending sort on `net_score` and a
1-based `final_rank`. -/

structure CombinedRow where
  coin_id : String
  symbol : String
  score_long : ℚ
  rank_long : ℕ
  score_short : ℚ
  rank_short : ℕ
  net_score : ℚ
  rank_diff : ℤ
  signal : String
  final_rank : ℕ
  deriving DecidableEq

/-- Lines 44-52: `np.select` over net-score thresholds, first match wins. -/
def signalOf (net : ℚ) : String :=
  if 50 ≤ net then "Strong Buy"
  else if 15 ≤ net then "Buy"
  else if net ≤ -50 then "Strong Sell"
  else if net ≤ -15 then "Sell"
  else "Neutral"

/-- Lines 25-52: the inner merge on `coin_id` with the derived columns; a
left row produces one output row per matching right row. -/
def mergeRows (long short : List ScoredRow) : List CombinedRow :=
  long.flatMap (fun L =>
    (short.filter (fun S => decide (S.coin_id = L.coin_id))).map (fun S =>
      let net := L.score - S.score
      { coin_id := L.coin_id, symbol := L.symbol,
        score_long := L.score, rank_long := L.rank,
        score_short := S.score, rank_short := S.rank,
        net_score := net, rank_diff := (S.rank : ℤ) - (L.rank : ℤ),
        signal := signalOf net, final_rank := 0 }))

/-- Line 56: `merged['final_rank'] = merged.index + 1` after sorting. -/
def assignFinalRanks : ℕ → List CombinedRow → List CombinedRow
  | _, [] => []
  | i, r :: rs => { r with final_rank := i } :: assignFinalRanks (i + 1) rs

/-- Lines 14-59 of ranking.py. -/
def create_combined_ranking (long short : List ScoredRow) : List CombinedRow :=
  if long = [] ∨ short = [] then []
  else
    assignFinalRanks 1
      (List.insertionSort (fun a b => b.net_score ≤ a.net_score)
        (mergeRows long short))

/-! ### Column-level model of the merge (for the dropped `primary_driver`)

Lines 25-31 of ranking.py select columns from each side before merging;
pandas names the merge output: left columns in order (suffixed when they
collide with a right non-key column), then right non-key columns (suffixed
when colliding), then the columns later assigned in lines 35-56. -/

/-- The columns of a `calculate_scores` table (score_calculator.py lines
38-88, in assignment order). -/
def score_table_cols : List String :=
  ["coin_id", "symbol", "raw_score", "score", "rank", "verdict", "primary_driver"]

/-- ranking.py line 26: `long_df[['coin_id', 'symbol', 'score', 'rank']]`. -/
def long_selected_cols : List String := ["coin_id", "symbol", "score", "rank"]

/-- ranking.py line 27: `short_df[['coin_id', 'score', 'rank']]`. -/
def short_selected_cols : List String := ["coin_id", "score", "rank"]

/-- Column naming of `pd.merge(left, right, on=key, suffixes=(sl, sr))`. -/
def merge_output_cols (left right : List String) (key sl sr : String) :
    List String :=
  left.map (fun c => if c ≠ key ∧ c ∈ right then c ++ sl else c) ++
    (right.filter (fun c => decide (c ≠ key))).map
      (fun c => if c ∈ left then c ++ sr else c)

/-- The columns of the table returned by `create_combined_ranking`. -/
def create_combined_ranking_cols : List String :=
  merge_output_cols long_selected_cols short_selected_cols "coin_id" "_long" "_short" ++
    ["net_score", "rank_diff", "signal", "final_rank"]

/-! ## Matrix substrate

A DataFrame of floats is `ℕ → ℕ → Option α` (row = date index, column =
asset position); `none` models NaN and non-finite values.  Entries outside
the frame's row/column ranges are never consulted by the theorems. -/

/-- Forward fill down one column: the value at row `d`, or the nearest
earlier value when row `d` is missing (`DataFrame.ffill`). -/
def ffillCol {α : Type} (col : ℕ → Option α) : ℕ → Option α
  | 0 => col 0
  | d + 1 =>
    match col (d + 1) with
    | some v => some v
    | none => ffillCol col d

/-- Forward fill of a whole matrix, column by column. -/
def ffillMat {α : Type} (P : ℕ → ℕ → Option α) : ℕ → ℕ → Option α :=
  fun d a => ffillCol (fun e => P e a) d

/-- The pandas `DataFrame.pct_change(k)`: `(x_d - x_(d-k)) / x_(d-k)` after the
pandas-default forward fill (`fill_method='pad'`); `none` for the first `k`
rows, for missing operands, and for a zero denominator (a non-finite float
quotient). -/
def pct_change {α : Type} [Field α] [DecidableEq α] (k : ℕ)
    (P : ℕ → ℕ → Option α) : ℕ → ℕ → Option α := fun d a =>
  if d < k then none
  else
    match ffillMat P d a, ffillMat P (d - k) a with
    | some p, some p0 => if p0 = 0 then none else some ((p - p0) / p0)
    | _, _ => none

/-! ## BacktestEngine (src/src/backtesting/engine.py)

`run_backtest`, lines 22-89, up to `net_strategy_ret` (the `_calculate_stats`
summary statistics are out of the claims' scope).  Factor matrices arrive as
an input dictionary, exactly as in the Python signature.  Dates are the row
indices `0, 1, 2, ...` of the price matrix; `range(0, len, rebalance_days)`
visits the rows with `d % R = 0`.  `rebalance_days ≥ 2` is the function's
working domain: `ffill(limit=rebalance_days-1)` raises in pandas for a limit
of 0. -/

/-- One price/factor/position matrix of the backtest. -/
abbrev QMat := ℕ → ℕ → Option ℚ

/-- Lines 38-47: `combined_score`, a zero frame accumulating
`factor_matrices[factor] * weight` over the strategy's weights; a weight
whose factor has no matrix is skipped.  Adding a missing (NaN) factor entry
poisons the cell, as in pandas. -/
def combined_score (Fs : List (String × QMat)) (ws : Weights) : QMat :=
  fun d a =>
    ws.foldl (fun acc p =>
      match alookup p.1 Fs with
      | some F =>
        match acc, F d a with
        | some x, some y => some (x + y * p.2)
        | _, _ => none
      | none => acc) (some 0)

/-- Lines 58-60: `day_scores[day_scores.notna()].nlargest(top_n).index` —
the assets with a defined score, sorted by score descending with earlier
columns first on ties (`nlargest` keeps first), truncated to `top_n`. -/
def validCoins (m : ℕ) (row : ℕ → Option ℚ) (N : ℕ) : List ℕ :=
  let cands := (List.range m).filter (fun a => (row a).isSome)
  (List.insertionSort
    (fun a b => (row b).getD 0 < (row a).getD 0 ∨
      ((row a).getD 0 = (row b).getD 0 ∧ a ≤ b)) cands).take N

/-- Lines 52-63: equal weight `1/top_n` on the top coins of every
`rebalance_days`-th row, 0 elsewhere. -/
def positions0 (m : ℕ) (cs : QMat) (R N : ℕ) : ℕ → ℕ → ℚ := fun d a =>
  if d % R = 0 ∧ a ∈ validCoins m (fun b => cs d b) N then 1 / (N : ℚ) else 0

/-- Line 66: `positions.replace(0, np.nan).ffill(limit=L).fillna(0)` — a
zero entry takes the nearest non-zero value at most `L` rows above, else
stays 0. -/
def ffillLimited (L : ℕ) (raw : ℕ → ℕ → ℚ) : ℕ → ℕ → ℚ := fun d a =>
  if raw d a ≠ 0 then raw d a
  else
    match (List.range' 1 L).find? (fun j => decide (j ≤ d ∧ raw (d - j) a ≠ 0)) with
    | some j => raw (d - j) a
    | none => 0

/-- Lines 52-66: the position matrix actually held. -/
def positions (m : ℕ) (cs : QMat) (R N : ℕ) : ℕ → ℕ → ℚ :=
  ffillLimited (R - 1) (positions0 m cs R N)

/-- Line 20: `self.daily_returns = self.prices.pct_change()`. -/
def daily_returns (P : QMat) : QMat := pct_change 1 P

/-- Line 73: `lagged_positions = positions.shift(1)` (row 0 becomes NaN). -/
def lagged_positions (pos : ℕ → ℕ → ℚ) : ℕ → ℕ → Option ℚ := fun d a =>
  if d = 0 then none else some (pos (d - 1) a)

/-- Line 76: `(lagged_positions * self.daily_returns).sum(axis=1)`; the
NaN-skipping row sum treats a missing product as 0. -/
def strategy_daily_ret (m : ℕ) (P : QMat) (Fs : List (String × QMat))
    (ws : Weights) (R N : ℕ) : ℕ → ℚ := fun d =>
  ((List.range m).map (fun a =>
    match lagged_positions (positions m (combined_score Fs ws) R N) d a,
        daily_returns P d a with
    | some p, some r => p * r
    | _, _ => 0)).sum

/-- Line 80: `positions.diff().abs().sum(axis=1)` (row 0 diffs to NaN,
summing to 0). -/
def turnover (m : ℕ) (pos : ℕ → ℕ → ℚ) : ℕ → ℚ := fun d =>
  if d = 0 then 0 else ((List.range m).map (fun a => |pos d a - pos (d - 1) a|)).sum

/-- Lines 80-83: `net_strategy_ret = strategy_daily_ret - turnover * fee`. -/
def net_strategy_ret (m : ℕ) (P : QMat) (Fs : List (String × QMat))
    (ws : Weights) (R N : ℕ) (fee : ℚ) : ℕ → ℚ := fun d =>
  strategy_daily_ret m P Fs ws R N d -
    turnover m (positions m (combined_score Fs ws) R N) d * fee

/-- Overwrite one cell of a matrix: the perturbation of the price (or of a
factor score) on one date for one asset. -/
def perturbMat (P : QMat) (T a0 : ℕ) (v : ℚ) : QMat := fun d a =>
  if d = T ∧ a = a0 then some v else P d a

/-- Two factor dictionaries that can differ only on date `T`: same factor
names in the same order, entrywise equal on every other date. -/
def FactorsAgreeOff (T : ℕ) (Fs Gs : List (String × QMat)) : Prop :=
  List.Forall₂ (fun p q => p.1 = q.1 ∧ ∀ d a, d ≠ T → p.2 d a = q.2 d a) Fs Gs

/-- A 3-day single-asset price matrix with constant price 1. -/
def c1_prices : QMat := fun d a => if a = 0 ∧ d ≤ 2 then some 1 else none

/-- A constant factor matrix for the same frame. -/
def c1_factor : QMat := fun d a => if a = 0 ∧ d ≤ 2 then some 1 else none

/-- A one-factor dictionary for the 3-day frame. -/
def c1_Fs : List (String × QMat) := [("momentum_30d", c1_factor)]

/-- The same dictionary with the factor score perturbed on date 2. -/
def c1_Gs : List (String × QMat) := [("momentum_30d", perturbMat c1_factor 2 0 5)]

/-- A single-factor strategy. -/
def c1_ws : Weights := [("momentum_30d", 1)]

/-! ## FactorCalculator.calculate_rolling_factors
(src/src/scoring_engine/factor_calculator.py lines 168-197)

The raw factor matrices need real square roots and logarithms, so this
module is embedded over `ℝ` (the classical `DecidableEq ℝ` stands in for
float comparison, hence the noncomputable section).  `none` models NaN and
the non-finite values (`log` of a non-positive quotient, division of a
non-zero numerator by zero). -/

noncomputable section

/-- A date-by-asset matrix of floats. -/
abbrev RMat := ℕ → ℕ → Option ℝ

/-- Line 178: `np.log(price_matrix / price_matrix.shift(1))`; row 0 is NaN,
and a non-positive quotient (or a missing operand) gives a non-finite
float. -/
def log_returns (P : RMat) : RMat := fun d a =>
  if d = 0 then none
  else
    match P d a, P (d - 1) a with
    | some p, some q => if q = 0 ∨ p / q ≤ 0 then none else some (Real.log (p / q))
    | _, _ => none

/-- The trailing window `[x_(d-w+1), ..., x_d]` of one column, defined only
when the window fits and every entry is present (pandas `rolling(w)` with
its default `min_periods = w`). -/
def windowVals (M : RMat) (w : ℕ) (d a : ℕ) : Option (List ℝ) :=
  if d + 1 < w then none
  else
    let vs := (List.range w).map (fun j => M (d - j) a)
    if vs.all Option.isSome then some (vs.reduceOption) else none

/-- The sample standard deviation (pandas `std`, `ddof=1`): `none` on fewer
than two values. -/
def sampleStd (l : List ℝ) : Option ℝ :=
  if l.length < 2 then none
  else
    let m : ℝ := l.sum / (l.length : ℝ)
    some (Real.sqrt (((l.map (fun x => (x - m) ^ 2)).sum) / ((l.length : ℝ) - 1)))

/-- The rolling standard deviation `M.rolling(w).std()`. -/
def rolling_std (w : ℕ) (M : RMat) : RMat := fun d a =>
  (windowVals M w d a).bind sampleStd

/-- Line 179: `-(log_ret.rolling(30).std() * np.sqrt(365))`. -/
def low_volatility_raw (P : RMat) : RMat := fun d a =>
  (rolling_std 30 (log_returns P) d a).map (fun s => -(s * Real.sqrt 365))

/-- Line 182: `-(price_matrix.pct_change(7))`. -/
def momentum_7d_bearish_raw (P : RMat) : RMat := fun d a =>
  (pct_change 7 P d a).map (fun x => -x)

/-- Lines 185-186: `momentum_30d / vol.replace(0, np.nan)` with
`vol = log_ret.rolling(30).std() * np.sqrt(365)`. -/
def quality_sharpe_raw (P : RMat) : RMat := fun d a =>
  match pct_change 30 P d a,
      (rolling_std 30 (log_returns P) d a).map (fun s => s * Real.sqrt 365) with
  | some mval, some v => if v = 0 then none else some (mval / v)
  | _, _ => none

/-- The defined entries of row `d` across the first `m` columns (pandas
skips NaN in row-wise `mean`/`std`). -/
def rowPresent (m : ℕ) (M : RMat) (d : ℕ) : List ℝ :=
  ((List.range m).map (fun a => M d a)).reduceOption

/-- The row mean `df.mean(axis=1)`: NaN on an all-missing row. -/
def rowMean (m : ℕ) (M : RMat) (d : ℕ) : Option ℝ :=
  if rowPresent m M d = [] then none
  else some ((rowPresent m M d).sum / ((rowPresent m M d).length : ℝ))

/-- The row standard deviation `df.std(axis=1)` (`ddof=1`): NaN on rows with
fewer than two defined
entries. -/
def rowStd (m : ℕ) (M : RMat) (d : ℕ) : Option ℝ :=
  sampleStd (rowPresent m M d)

/-- The pandas `clip(-3, 3)` on a finite value. -/
def clip3 (x : ℝ) : ℝ := max (-3) (min 3 x)

/-- Lines 189-196: per-date cross-sectional normalization
`df.sub(mean, axis=0).div(std, axis=0).clip(-3, 3).fillna(0)` over the `m`
assets.  A missing entry, a missing row std, and the zero-std row (where
every present entry equals the mean, so the float quotient is NaN) all fill
to 0; in the zero-std case the modelled quotient `(x - mu) / 0` is the same
0 that the fill produces, so the division is written uniformly. -/
def normalizeMat (m : ℕ) (M : RMat) : RMat := fun d a =>
  match M d a, rowMean m M d, rowStd m M d with
  | some x, some mu, some s => some (clip3 ((x - mu) / s))
  | _, _, _ => some 0

/-- Lines 168-197 of factor_calculator.py: the four price-derived rolling
factor matrices, cross-sectionally normalized, for an `n`-day, `m`-asset
price matrix (the empty frame returns the empty dictionary). -/
def calculate_rolling_factors (n m : ℕ) (P : RMat) : List (String × RMat) :=
  if n = 0 ∨ m = 0 then []
  else
    [("momentum_30d", normalizeMat m (pct_change 30 P)),
     ("low_volatility", normalizeMat m (low_volatility_raw P)),
     ("momentum_7d_bearish", normalizeMat m (momentum_7d_bearish_raw P)),
     ("quality_sharpe", normalizeMat m (quality_sharpe_raw P))]

end

/-! # Theorems -/

/-! ## Strategy weight normalization (C5) -/

theorem totalAbsWeight_cons (p : String × ℚ) (ps : Weights) :
    totalAbsWeight (p :: ps) = |p.2| + totalAbsWeight ps := by
  simp [totalAbsWeight]

theorem totalAbsWeight_nonneg (ws : Weights) : 0 ≤ totalAbsWeight ws := by
  apply List.sum_nonneg
  intro x hx
  obtain ⟨p, _, rfl⟩ := List.mem_map.1 hx
  exact abs_nonneg _

theorem mem_stripZeroWeights_ne (ws : Weights) (p : String × ℚ)
    (h : p ∈ stripZeroWeights ws) : p.2 ≠ 0 := by
  have := (List.mem_filter.1 h).2
  exact of_decide_eq_true this

theorem stripZeroWeights_eq_self (ws : Weights) (h : ∀ p ∈ ws, p.2 ≠ 0) :
    stripZeroWeights ws = ws :=
  List.filter_eq_self.2 (fun p hp => decide_eq_true (h p hp))

theorem totalAbsWeight_map_div (ws : Weights) (T : ℚ) (hT : 0 < T) :
    totalAbsWeight (ws.map (fun p => (p.1, p.2 / T))) = totalAbsWeight ws / T := by
  induction ws with
  | nil => simp [totalAbsWeight]
  | cons p ps ih =>
    rw [List.map_cons, totalAbsWeight_cons, totalAbsWeight_cons, ih, abs_div,
      abs_of_pos hT, add_div]

/-- C5: strategy weight normalization is idempotent — `validate_strategy_weights`
strips zero weights and divides the rest by the sum of absolute weights, and
applying it to a strategy it has already normalized returns exactly the same
weights. -/
theorem validate_strategy_weights_idempotent (ws ws' : Weights)
    (h : validate_strategy_weights ws = some ws') :
    validate_strategy_weights ws' = some ws' := by
  simp only [validate_strategy_weights] at h
  split_ifs at h with h0 h1
  · have hpos : 0 < totalAbsWeight (stripZeroWeights ws) :=
      lt_of_le_of_ne (totalAbsWeight_nonneg _) (Ne.symm h0)
    obtain rfl := (Option.some.inj h).symm
    have hne : ∀ p ∈ (stripZeroWeights ws).map
        (fun p => (p.1, p.2 / totalAbsWeight (stripZeroWeights ws))), p.2 ≠ 0 := by
      intro p hp
      obtain ⟨q, hq, rfl⟩ := List.mem_map.1 hp
      exact div_ne_zero (mem_stripZeroWeights_ne ws q hq) h0
    have hstrip := stripZeroWeights_eq_self _ hne
    have htot : totalAbsWeight ((stripZeroWeights ws).map
        (fun p => (p.1, p.2 / totalAbsWeight (stripZeroWeights ws)))) = 1 := by
      rw [totalAbsWeight_map_div _ _ hpos, div_self h0]
    simp only [validate_strategy_weights, hstrip, htot]
    norm_num
  · obtain rfl := (Option.some.inj h).symm
    have hstrip := stripZeroWeights_eq_self (stripZeroWeights ws)
      (fun p hp => mem_stripZeroWeights_ne ws p hp)
    simp only [validate_strategy_weights, hstrip]
    rw [if_neg h0, if_neg h1]

theorem validate_strategy_weights_idempotent_witness :
    validate_strategy_weights [("momentum_30d", (1 : ℚ))] =
      some [("momentum_30d", (1 : ℚ))] :=
  validate_strategy_weights_idempotent [("momentum_30d", (2 : ℚ))] _
    (by norm_num [validate_strategy_weights, stripZeroWeights, totalAbsWeight])

/-! ## Market regime (C7, C9) -/

/-- C7 counterexample: a benchmark history whose 30-day change is exactly
-20% (and whose 7-day change is 0) yields regime `neutral`, not `bear`: the
bear test of line 93 of market_regime.py requires a change strictly below
-20, not -15, and only after the bull test. -/
theorem regime_minus20_not_bear :
    btcChange 30 regimeMinus20Prices = -20 ∧
      (analyze_market_condition regimeMinus20Prices).regime = "neutral" ∧
      (analyze_market_condition regimeMinus20Prices).regime ≠ "bear" := by
  refine ⟨?_, ?_, ?_⟩ <;>
    norm_num [analyze_market_condition, btcChange, regimeMinus20Prices,
      List.replicate, List.getD] <;>
    decide

/-- C7 amended: a 30-day change strictly below -20% (second branch, after
bull at +20%) yields regime `bear` with the bear-defense strategy
`value_defensive`. -/
theorem regime_bear_below_minus20 (prices : List ℚ)
    (hlen : 30 ≤ prices.length) (hb : btcChange 30 prices < -20) :
    (analyze_market_condition prices).regime = "bear" ∧
      (analyze_market_condition prices).suggested_strategy = "value_defensive" := by
  unfold analyze_market_condition
  rw [if_neg (by omega), if_neg (by linarith), if_pos hb]
  exact ⟨rfl, rfl⟩

theorem regime_bear_below_minus20_witness :
    (analyze_market_condition regimeMinus30Prices).regime = "bear" ∧
      (analyze_market_condition regimeMinus30Prices).suggested_strategy =
        "value_defensive" :=
  regime_bear_below_minus20 regimeMinus30Prices (by norm_num [regimeMinus30Prices])
    (by norm_num [btcChange, regimeMinus30Prices, List.replicate, List.getD])

/-- C9: any non-empty benchmark history with fewer than 30 price points
deterministically yields the neutral/balanced cold-start verdict. -/
theorem regime_short_history_neutral (prices : List ℚ)
    (hne : prices ≠ []) (hlen : prices.length < 30) :
    analyze_market_condition prices =
      { regime := "neutral", suggested_strategy := "balanced",
        btc_change_7d := 0, btc_change_30d := 0 } := by
  unfold analyze_market_condition
  rw [if_pos hlen]

theorem regime_short_history_neutral_witness :
    analyze_market_condition [(1 : ℚ)] =
      { regime := "neutral", suggested_strategy := "balanced",
        btc_change_7d := 0, btc_change_30d := 0 } :=
  regime_short_history_neutral [(1 : ℚ)] (by decide) (by decide)

/-! ## Benchmark column fallback (C10) -/

/-- C10: the benchmark return series of `run_backtest` is the `bitcoin`
column of the daily-returns matrix when that column exists, and otherwise
silently the first column. -/
theorem benchmark_returns_bitcoin_or_first (cols : List String)
    (dr : ℕ → ℕ → Option ℚ) :
    ("bitcoin" ∈ cols →
      ∀ d, benchmark_returns cols dr d = dr d (cols.indexOf "bitcoin")) ∧
    ("bitcoin" ∉ cols → ∀ c0 rest, cols = c0 :: rest →
      ∀ d, benchmark_returns cols dr d = dr d 0) := by
  constructor
  · intro hmem d
    simp [benchmark_returns, benchmark_col, hmem]
  · intro hmem c0 rest hcols d
    subst hcols
    simp [benchmark_returns, benchmark_col, hmem]

theorem benchmark_returns_bitcoin_or_first_witness :
    (benchmark_returns ["ethereum", "bitcoin"] (fun d a => some ((d : ℚ) + a)) 3 =
      (fun d a => some ((d : ℚ) + a)) 3
        (["ethereum", "bitcoin"].indexOf "bitcoin")) ∧
    (benchmark_returns ["ethereum", "solana"] (fun d a => some ((d : ℚ) + a)) 3 =
      (fun d a => some ((d : ℚ) + a)) 3 0) :=
  ⟨(benchmark_returns_bitcoin_or_first ["ethereum", "bitcoin"] _).1 (by decide) 3,
   (benchmark_returns_bitcoin_or_first ["ethereum", "solana"] _).2 (by decide)
     "ethereum" ["solana"] rfl 3⟩

/-! ## Dropped primary driver (C8) -/

/-- C8: a `calculate_scores` table carries a `primary_driver` column, but
`create_combined_ranking` selects only `coin_id`, `symbol`, `score`, `rank`
from the long table before merging, so the combined ranking has no
`primary_driver` column at all (src/src/main.py later reads
`row['primary_driver']` from this table). -/
theorem combined_ranking_drops_primary_driver :
    "primary_driver" ∈ score_table_cols ∧
      "primary_driver" ∉ long_selected_cols ∧
      "primary_driver" ∉ create_combined_ranking_cols := by
  decide

/-! ## Rolling factor bounds (C2) -/

theorem clip3_le (x : ℝ) : clip3 x ≤ 3 :=
  max_le (by norm_num) (min_le_left _ _)

theorem neg_three_le_clip3 (x : ℝ) : -3 ≤ clip3 x :=
  le_max_left _ _

theorem normalizeMat_entry (m : ℕ) (M : RMat) (d a : ℕ) :
    ∃ q, normalizeMat m M d a = some q ∧ -3 ≤ q ∧ q ≤ 3 := by
  unfold normalizeMat
  rcases hx : M d a with _ | x
  · exact ⟨0, rfl, by norm_num, by norm_num⟩
  · rcases hmu : rowMean m M d with _ | mu
    · exact ⟨0, rfl, by norm_num, by norm_num⟩
    · rcases hs : rowStd m M d with _ | s
      · exact ⟨0, rfl, by norm_num, by norm_num⟩
      · exact ⟨clip3 ((x - mu) / s), rfl, neg_three_le_clip3 _, clip3_le _⟩

/-- C2: every entry of every factor matrix returned by
`calculate_rolling_factors` is a defined value (no NaN survives the
`fillna(0)`) lying in the clip range `[-3, 3]`. -/
theorem calculate_rolling_factors_bounded (n m : ℕ) (P : RMat) :
    ListAll (fun pr => ∀ d a, ∃ q, pr.2 d a = some q ∧ -3 ≤ q ∧ q ≤ 3)
      (calculate_rolling_factors n m P) := by
  unfold calculate_rolling_factors
  split
  · trivial
  · exact ⟨fun d a => normalizeMat_entry m _ d a,
      fun d a => normalizeMat_entry m _ d a,
      fun d a => normalizeMat_entry m _ d a,
      fun d a => normalizeMat_entry m _ d a, trivial⟩

/-! ## Score scaling (C3) and primary driver (C6) -/

theorem foldl_min_le_init (xs : List ℚ) (acc : ℚ) : xs.foldl min acc ≤ acc := by
  induction xs generalizing acc with
  | nil => exact le_refl _
  | cons x xs ih => exact le_trans (ih (min acc x)) (min_le_left _ _)

theorem foldl_min_le_mem (xs : List ℚ) (acc y : ℚ) (h : y ∈ xs) :
    xs.foldl min acc ≤ y := by
  induction xs generalizing acc with
  | nil => cases h
  | cons x xs ih =>
    rcases List.mem_cons.1 h with rfl | hy
    · exact le_trans (foldl_min_le_init xs (min acc y)) (min_le_right _ _)
    · exact ih (min acc x) hy

theorem foldl_min_mem (xs : List ℚ) (acc : ℚ) :
    xs.foldl min acc = acc ∨ xs.foldl min acc ∈ xs := by
  induction xs generalizing acc with
  | nil => exact Or.inl rfl
  | cons x xs ih =>
    rcases ih (min acc x) with h | h
    · rcases min_choice acc x with hm | hm
      · exact Or.inl (by rw [List.foldl_cons, h, hm])
      · exact Or.inr (by rw [List.foldl_cons, h, hm]; exact List.mem_cons_self _ _)
    · exact Or.inr (List.mem_cons_of_mem _ h)

theorem init_le_foldl_max (xs : List ℚ) (acc : ℚ) : acc ≤ xs.foldl max acc := by
  induction xs generalizing acc with
  | nil => exact le_refl _
  | cons x xs ih => exact le_trans (le_max_left _ _) (ih (max acc x))

theorem mem_le_foldl_max (xs : List ℚ) (acc y : ℚ) (h : y ∈ xs) :
    y ≤ xs.foldl max acc := by
  induction xs generalizing acc with
  | nil => cases h
  | cons x xs ih =>
    rcases List.mem_cons.1 h with rfl | hy
    · exact le_trans (le_max_right _ _) (init_le_foldl_max xs (max acc y))
    · exact ih (max acc x) hy

theorem foldl_max_mem (xs : List ℚ) (acc : ℚ) :
    xs.foldl max acc = acc ∨ xs.foldl max acc ∈ xs := by
  induction xs generalizing acc with
  | nil => exact Or.inl rfl
  | cons x xs ih =>
    rcases ih (max acc x) with h | h
    · rcases max_choice acc x with hm | hm
      · exact Or.inl (by rw [List.foldl_cons, h, hm])
      · exact Or.inr (by rw [List.foldl_cons, h, hm]; exact List.mem_cons_self _ _)
    · exact Or.inr (List.mem_cons_of_mem _ h)

theorem listMin_le_of_mem {l : List ℚ} {x : ℚ} (h : x ∈ l) : listMin l ≤ x := by
  cases l with
  | nil => cases h
  | cons a as =>
    rcases List.mem_cons.1 h with rfl | hx
    · exact foldl_min_le_init as x
    · exact foldl_min_le_mem as a x hx

theorem le_listMax_of_mem {l : List ℚ} {x : ℚ} (h : x ∈ l) : x ≤ listMax l := by
  cases l with
  | nil => cases h
  | cons a as =>
    rcases List.mem_cons.1 h with rfl | hx
    · exact init_le_foldl_max as x
    · exact mem_le_foldl_max as a x hx

theorem listMin_mem {l : List ℚ} (h : l ≠ []) : listMin l ∈ l := by
  cases l with
  | nil => exact absurd rfl h
  | cons a as =>
    show as.foldl min a ∈ a :: as
    rcases foldl_min_mem as a with he | he
    · rw [he]; exact List.mem_cons_self _ _
    · exact List.mem_cons_of_mem _ he

theorem listMax_mem {l : List ℚ} (h : l ≠ []) : listMax l ∈ l := by
  cases l with
  | nil => exact absurd rfl h
  | cons a as =>
    show as.foldl max a ∈ a :: as
    rcases foldl_max_mem as a with he | he
    · rw [he]; exact List.mem_cons_self _ _
    · exact List.mem_cons_of_mem _ he

theorem scaleScore_bounds (mn mx rw : ℚ) (h1 : mn ≤ rw) (h2 : rw ≤ mx) :
    0 ≤ scaleScore mn mx rw ∧ scaleScore mn mx rw ≤ 100 := by
  unfold scaleScore
  split
  · rename_i hlt
    have hd : 0 < mx - mn := by linarith
    constructor
    · exact mul_nonneg (div_nonneg (by linarith) (by linarith)) (by norm_num)
    · have : (rw - mn) / (mx - mn) ≤ 1 := (div_le_one hd).2 (by linarith)
      nlinarith
  · norm_num

/-- Every row of `calculate_scores` output is the scored image of a source
panel row. -/
theorem mem_calculate_scores (panel : Panel) (ws : Weights) (r : ScoredRow)
    (h : r ∈ calculate_scores panel ws) :
    ∃ src ∈ panel.rows,
      r = { coin_id := src.coin_id, symbol := src.symbol,
            raw := raw_score ws panel.cols src,
            score := scaleScore
              (listMin (panel.rows.map (raw_score ws panel.cols)))
              (listMax (panel.rows.map (raw_score ws panel.cols)))
              (raw_score ws panel.cols src),
            rank := rankOf
              ((panel.rows.map (raw_score ws panel.cols)).map
                (scaleScore
                  (listMin (panel.rows.map (raw_score ws panel.cols)))
                  (listMax (panel.rows.map (raw_score ws panel.cols)))))
              (scaleScore
                (listMin (panel.rows.map (raw_score ws panel.cols)))
                (listMax (panel.rows.map (raw_score ws panel.cols)))
                (raw_score ws panel.cols src)),
            primary_driver :=
              (argmaxFirst (contributions ws panel.cols src)).map Prod.fst } := by
  unfold calculate_scores at h
  split at h
  · cases h
  · have h2 := (List.perm_insertionSort _ _).mem_iff.1 h
    obtain ⟨src, hsrc, rfl⟩ := List.mem_map.1 h2
    exact ⟨src, hsrc, rfl⟩

/-- C3: with a non-empty panel and non-empty strategy weights, every score
is min-max scaled into [0, 100], and equal raw scores across the universe
give every asset the score 50. -/
theorem calculate_scores_minmax_scaled (panel : Panel) (ws : Weights)
    (hrows : panel.rows ≠ []) (hws : ws ≠ []) :
    (∀ r ∈ calculate_scores panel ws, 0 ≤ r.score ∧ r.score ≤ 100) ∧
    ((∀ r1 ∈ panel.rows, ∀ r2 ∈ panel.rows,
        raw_score ws panel.cols r1 = raw_score ws panel.cols r2) →
      ∀ r ∈ calculate_scores panel ws, r.score = 50) := by
  constructor
  · intro r hr
    obtain ⟨src, hsrc, rfl⟩ := mem_calculate_scores _ _ _ hr
    have hmem : raw_score ws panel.cols src ∈
        panel.rows.map (raw_score ws panel.cols) :=
      List.mem_map_of_mem _ hsrc
    exact scaleScore_bounds _ _ _ (listMin_le_of_mem hmem) (le_listMax_of_mem hmem)
  · intro hall r hr
    obtain ⟨src, hsrc, rfl⟩ := mem_calculate_scores _ _ _ hr
    have hne : panel.rows.map (raw_score ws panel.cols) ≠ [] := by
      simpa using hrows
    obtain ⟨a, ha, hae⟩ := List.mem_map.1 (listMin_mem hne)
    obtain ⟨b, hb, hbe⟩ := List.mem_map.1 (listMax_mem hne)
    have heq : listMin (panel.rows.map (raw_score ws panel.cols)) =
        listMax (panel.rows.map (raw_score ws panel.cols)) := by
      rw [← hae, ← hbe]; exact hall a ha b hb
    show scaleScore _ _ _ = 50
    rw [scaleScore, if_neg (by rw [heq]; exact lt_irrefl _)]

theorem calculate_scores_minmax_scaled_witness :
    (0 : ℚ) ≤ (⟨"b", "B", 3, 100, 1, some "f"⟩ : ScoredRow).score ∧
      (⟨"b", "B", 3, 100, 1, some "f"⟩ : ScoredRow).score ≤ 100 :=
  (calculate_scores_minmax_scaled
    ⟨["f"], [⟨"a", "A", [("f", 1)]⟩, ⟨"b", "B", [("f", 3)]⟩]⟩
    [("f", 1)] (by exact List.cons_ne_nil _ _) (by exact List.cons_ne_nil _ _)).1 _
    (by simp [calculate_scores, raw_score, presentWeights, fval, alookup,
      contributions, argmaxFirst, listMin, listMax, scaleScore, rankOf,
      List.insertionSort, List.orderedInsert] <;> norm_num)

theorem argmaxFirst_eq_none (l : List (String × ℚ))
    (h : argmaxFirst l = none) : l = [] := by
  cases l with
  | nil => rfl
  | cons p ps =>
    exfalso
    rcases hps : argmaxFirst ps with _ | q
    · simp only [argmaxFirst, hps] at h
      exact Option.noConfusion h
    · simp only [argmaxFirst, hps] at h
      split at h <;> exact Option.noConfusion h

theorem argmaxFirst_spec (l : List (String × ℚ)) :
    ∀ q, argmaxFirst l = some q → q ∈ l ∧ ∀ p ∈ l, p.2 ≤ q.2 := by
  induction l with
  | nil => intro q h; cases h
  | cons p ps ih =>
    intro q h
    rcases hps : argmaxFirst ps with _ | q0
    · simp only [argmaxFirst, hps] at h
      obtain rfl := Option.some.inj h
      refine ⟨List.mem_cons_self _ _, ?_⟩
      intro x hx
      rcases List.mem_cons.1 hx with rfl | hx
      · exact le_refl _
      · rw [argmaxFirst_eq_none ps hps] at hx; cases hx
    · simp only [argmaxFirst, hps] at h
      obtain ⟨hq0mem, hq0max⟩ := ih q0 hps
      by_cases hgt : q0.2 > p.2
      · rw [if_pos hgt] at h
        obtain rfl := Option.some.inj h
        refine ⟨List.mem_cons_of_mem _ hq0mem, ?_⟩
        intro x hx
        rcases List.mem_cons.1 hx with rfl | hx
        · exact le_of_lt hgt
        · exact hq0max x hx
      · rw [if_neg hgt] at h
        obtain rfl := Option.some.inj h
        refine ⟨List.mem_cons_self _ _, ?_⟩
        intro x hx
        rcases List.mem_cons.1 hx with rfl | hx
        · exact le_refl _
        · exact (hq0max x hx).trans (le_of_not_lt hgt)

/-- C6 counterexample: with weights 1/2, 1/2 and z-scores -3, 1, the factor
of maximal absolute weighted contribution is `fa` (|-3/2| > |1/2|), yet
`calculate_scores` reports `primary_driver = fb`: line 85 of
score_calculator.py maximizes the signed contribution, not its absolute
value. -/
theorem primary_driver_not_absolute_argmax :
    (calculate_scores ⟨["fa", "fb"], [⟨"x", "X", [("fa", -3), ("fb", 1)]⟩]⟩
        [("fa", 1/2), ("fb", 1/2)]).map ScoredRow.primary_driver = [some "fb"] ∧
    ("fa", -(3 : ℚ)/2) ∈ contributions [("fa", 1/2), ("fb", 1/2)] ["fa", "fb"]
        ⟨"x", "X", [("fa", -3), ("fb", 1)]⟩ ∧
    ("fb", (1 : ℚ)/2) ∈ contributions [("fa", 1/2), ("fb", 1/2)] ["fa", "fb"]
        ⟨"x", "X", [("fa", -3), ("fb", 1)]⟩ ∧
    |(-(3 : ℚ)/2)| > |(1 : ℚ)/2| := by
  refine ⟨?_, ?_, ?_, ?_⟩
  · simp [calculate_scores, raw_score, presentWeights, fval, alookup,
      contributions, argmaxFirst, listMin, listMax, scaleScore, rankOf,
      List.insertionSort, List.orderedInsert] <;> norm_num
  · simp [contributions, presentWeights, fval, alookup] <;> norm_num
  · simp [contributions, presentWeights, fval, alookup] <;> norm_num
  · rw [abs_of_nonpos (by norm_num), abs_of_nonneg (by norm_num)]
    norm_num

/-- C6 amended: for every scored row, `primary_driver` is the factor name
maximizing the signed weighted contribution `weight[f] * zscore[asset, f]`
over the factors present in both the strategy and the panel (first such
factor on ties), computed from the same weights and z-scores as the scoring
sum. -/
theorem calculate_scores_primary_driver_signed (panel : Panel) (ws : Weights)
    (r : ScoredRow) (h : r ∈ calculate_scores panel ws) :
    ∃ src ∈ panel.rows, r.coin_id = src.coin_id ∧ r.symbol = src.symbol ∧
      r.primary_driver =
        (argmaxFirst (contributions ws panel.cols src)).map Prod.fst ∧
      ∀ f, r.primary_driver = some f →
        ∃ c, (f, c) ∈ contributions ws panel.cols src ∧
          ∀ p ∈ contributions ws panel.cols src, p.2 ≤ c := by
  obtain ⟨src, hsrc, rfl⟩ := mem_calculate_scores _ _ _ h
  refine ⟨src, hsrc, rfl, rfl, rfl, ?_⟩
  intro f hf
  dsimp only at hf
  rcases hq : argmaxFirst (contributions ws panel.cols src) with _ | q
  · rw [hq] at hf; cases hf
  · rw [hq, Option.map_some'] at hf
    obtain rfl := Option.some.inj hf
    obtain ⟨hqmem, hqmax⟩ := argmaxFirst_spec _ q hq
    refine ⟨q.2, ?_, hqmax⟩
    simpa using hqmem

theorem calculate_scores_primary_driver_signed_witness :
    ∃ src ∈ (⟨["fa", "fb"], [⟨"x", "X", [("fa", -3), ("fb", 1)]⟩]⟩ : Panel).rows,
      (⟨"x", "X", -1, 50, 1, some "fb"⟩ : ScoredRow).coin_id = src.coin_id ∧
      (⟨"x", "X", -1, 50, 1, some "fb"⟩ : ScoredRow).symbol = src.symbol ∧
      (⟨"x", "X", -1, 50, 1, some "fb"⟩ : ScoredRow).primary_driver =
        (argmaxFirst (contributions [("fa", 1/2), ("fb", 1/2)]
          (⟨["fa", "fb"], [⟨"x", "X", [("fa", -3), ("fb", 1)]⟩]⟩ : Panel).cols
          src)).map Prod.fst ∧
      ∀ f, (⟨"x", "X", -1, 50, 1, some "fb"⟩ : ScoredRow).primary_driver = some f →
        ∃ c, (f, c) ∈ contributions [("fa", 1/2), ("fb", 1/2)]
            (⟨["fa", "fb"], [⟨"x", "X", [("fa", -3), ("fb", 1)]⟩]⟩ : Panel).cols src ∧
          ∀ p ∈ contributions [("fa", 1/2), ("fb", 1/2)]
              (⟨["fa", "fb"], [⟨"x", "X", [("fa", -3), ("fb", 1)]⟩]⟩ : Panel).cols src,
            p.2 ≤ c :=
  calculate_scores_primary_driver_signed
    ⟨["fa", "fb"], [⟨"x", "X", [("fa", -3), ("fb", 1)]⟩]⟩
    [("fa", 1/2), ("fb", 1/2)] ⟨"x", "X", -1, 50, 1, some "fb"⟩
    (by simp [calculate_scores, raw_score, presentWeights, fval, alookup,
      contributions, argmaxFirst, listMin, listMax, scaleScore, rankOf,
      List.insertionSort, List.orderedInsert] <;> norm_num)

/-! ## Combined ranking (C4) -/

theorem filter_coin_length (short : List ScoredRow) (k : String)
    (hs : (short.map ScoredRow.coin_id).Nodup) :
    (short.filter (fun S => decide (S.coin_id = k))).length =
      if k ∈ short.map ScoredRow.coin_id then 1 else 0 := by
  induction short with
  | nil => simp
  | cons S rest ih =>
    rw [List.map_cons, List.nodup_cons] at hs
    obtain ⟨hnotin, hrest⟩ := hs
    by_cases hk : S.coin_id = k
    · subst hk
      rw [List.filter_cons_of_pos (by simp)]
      have hemp : rest.filter (fun T => decide (T.coin_id = S.coin_id)) = [] := by
        rw [List.filter_eq_nil_iff]
        intro T hT hTk
        rw [decide_eq_true_eq] at hTk
        exact hnotin (hTk ▸ List.mem_map_of_mem _ hT)
      rw [hemp, if_pos (by rw [List.map_cons]; exact List.mem_cons_self _ _)]
      rfl
    · rw [List.filter_cons_of_neg (by simpa using hk), ih hrest]
      by_cases hm : k ∈ rest.map ScoredRow.coin_id
      · rw [if_pos hm, if_pos (by rw [List.map_cons]; exact List.mem_cons_of_mem _ hm)]
      · rw [if_neg hm, if_neg (by
          rw [List.map_cons, List.mem_cons]
          rintro (h | h)
          · exact hk h.symm
          · exact hm h)]

theorem mergeRows_length_eq (long short : List ScoredRow)
    (hs : (short.map ScoredRow.coin_id).Nodup) :
    (mergeRows long short).length =
      (long.filter
        (fun L => decide (L.coin_id ∈ short.map ScoredRow.coin_id))).length := by
  induction long with
  | nil => rfl
  | cons L rest ih =>
    have hstep : (mergeRows (L :: rest) short).length =
        (short.filter (fun S => decide (S.coin_id = L.coin_id))).length +
          (mergeRows rest short).length := by
      simp [mergeRows, List.flatMap_cons]
    rw [hstep, ih, filter_coin_length short L.coin_id hs, List.filter_cons]
    by_cases hm : L.coin_id ∈ short.map ScoredRow.coin_id
    · rw [if_pos hm, if_pos (by simpa using hm)]
      simp [Nat.add_comm]
    · rw [if_neg hm, if_neg (by simpa using hm)]
      simp

theorem assignFinalRanks_length (l : List CombinedRow) (i : ℕ) :
    (assignFinalRanks i l).length = l.length := by
  induction l generalizing i with
  | nil => rfl
  | cons x xs ih => simp [assignFinalRanks, ih]

theorem assignFinalRanks_mem (l : List CombinedRow) (i : ℕ) (r : CombinedRow)
    (h : r ∈ assignFinalRanks i l) :
    ∃ r0 ∈ l, ∃ j, r = { r0 with final_rank := j } := by
  induction l generalizing i with
  | nil => cases h
  | cons x xs ih =>
    rcases List.mem_cons.1 h with rfl | h2
    · exact ⟨x, List.mem_cons_self _ _, i, rfl⟩
    · obtain ⟨r0, hr0, j, rfl⟩ := ih (i + 1) h2
      exact ⟨r0, List.mem_cons_of_mem _ hr0, j, rfl⟩

theorem mem_mergeRows (long short : List ScoredRow) (r : CombinedRow)
    (h : r ∈ mergeRows long short) :
    ∃ L ∈ long, ∃ S ∈ short, S.coin_id = L.coin_id ∧
      r = { coin_id := L.coin_id, symbol := L.symbol, score_long := L.score,
            rank_long := L.rank, score_short := S.score, rank_short := S.rank,
            net_score := L.score - S.score,
            rank_diff := (S.rank : ℤ) - (L.rank : ℤ),
            signal := signalOf (L.score - S.score), final_rank := 0 } := by
  simp only [mergeRows, List.mem_flatMap, List.mem_map] at h
  obtain ⟨L, hL, S, hS, rfl⟩ := h
  have hf := List.mem_filter.1 hS
  exact ⟨L, hL, S, hf.1, of_decide_eq_true hf.2, rfl⟩

/-- C4: the combined ranking is a strict inner join on asset identity: with
asset-keyed (duplicate-free) score tables it has at most
`min(len(long), len(short))` rows, every row's `net_score` is
`score_long - score_short`, and every row's asset appears in both input
tables (an asset present on only one side is excluded). -/
theorem create_combined_ranking_inner_join (long short : List ScoredRow)
    (hl : (long.map ScoredRow.coin_id).Nodup)
    (hs : (short.map ScoredRow.coin_id).Nodup) :
    (create_combined_ranking long short).length ≤
        min long.length short.length ∧
    ∀ r ∈ create_combined_ranking long short,
      r.net_score = r.score_long - r.score_short ∧
      r.coin_id ∈ long.map ScoredRow.coin_id ∧
      r.coin_id ∈ short.map ScoredRow.coin_id := by
  constructor
  · unfold create_combined_ranking
    split
    · simp
    · rw [assignFinalRanks_length, (List.perm_insertionSort _ _).length_eq,
        mergeRows_length_eq long short hs]
      refine le_min (List.length_filter_le _ _) ?_
      have hsub : (long.filter
            (fun L => decide (L.coin_id ∈ short.map ScoredRow.coin_id))).map
            ScoredRow.coin_id ⊆ short.map ScoredRow.coin_id := by
        intro k hk
        obtain ⟨L, hL, rfl⟩ := List.mem_map.1 hk
        exact of_decide_eq_true (List.mem_filter.1 hL).2
      have hnd : ((long.filter
            (fun L => decide (L.coin_id ∈ short.map ScoredRow.coin_id))).map
            ScoredRow.coin_id).Nodup :=
        ((List.filter_sublist _).map _).nodup hl
      have hle := (List.subperm_of_subset hnd hsub).length_le
      rw [List.length_map, List.length_map] at hle
      exact hle
  · intro r hr
    unfold create_combined_ranking at hr
    split at hr
    · cases hr
    · obtain ⟨r0, hr0, j, rfl⟩ := assignFinalRanks_mem _ _ _ hr
      have hr0m : r0 ∈ mergeRows long short :=
        (List.perm_insertionSort _ _).mem_iff.1 hr0
      obtain ⟨L, hL, S, hS, hcoin, rfl⟩ := mem_mergeRows _ _ _ hr0m
      refine ⟨rfl, List.mem_map_of_mem _ hL, ?_⟩
      show L.coin_id ∈ short.map ScoredRow.coin_id
      rw [← hcoin]
      exact List.mem_map_of_mem _ hS

theorem create_combined_ranking_inner_join_witness :
    (create_combined_ranking [⟨"btc", "BTC", 1, 80, 1, some "f"⟩]
        [⟨"btc", "BTC", 0, 30, 1, some "g"⟩]).length ≤
      min [(⟨"btc", "BTC", 1, 80, 1, some "f"⟩ : ScoredRow)].length
        [(⟨"btc", "BTC", 0, 30, 1, some "g"⟩ : ScoredRow)].length :=
  (create_combined_ranking_inner_join _ _ (by simp) (by simp)).1

/-! ## Backtest look-ahead (C1) -/

set_option maxHeartbeats 1600000 in
/-- C1 counterexample: perturbing the price on date T = 2 (from 1 to 2, one
asset, constant scores, `rebalance_days = 2`, `top_n = 1`, zero fee) changes
the realized strategy return on date 2 itself: the day-2 return is
`position(1) * (p_2 / p_1 - 1)`, which reads the date-2 price. -/
theorem backtest_price_perturbation_changes_same_day_return :
    net_strategy_ret 1 (perturbMat c1_prices 2 0 2) c1_Fs c1_ws 2 1 0 2 ≠
      net_strategy_ret 1 c1_prices c1_Fs c1_ws 2 1 0 2 := by
  norm_num [net_strategy_ret, strategy_daily_ret, turnover, positions,
    positions0, ffillLimited, validCoins, combined_score, alookup,
    daily_returns, pct_change, ffillMat, ffillCol, lagged_positions,
    perturbMat, c1_prices, c1_factor, c1_Fs, c1_ws,
    List.insertionSort, List.orderedInsert, List.range_succ, List.range',
    List.find?]

theorem ffillCol_congr {α : Type} (col1 col2 : ℕ → Option α) (d : ℕ)
    (h : ∀ e, e ≤ d → col1 e = col2 e) :
    ffillCol col1 d = ffillCol col2 d := by
  induction d with
  | zero => exact h 0 (le_refl 0)
  | succ d ih =>
    simp only [ffillCol]
    rw [h (d + 1) (le_refl _)]
    rcases hc : col2 (d + 1) with _ | v
    · exact ih (fun e he => h e (le_trans he (Nat.le_succ d)))
    · rfl

theorem pct_change_perturb_early (P : QMat) (T a0 : ℕ) (v : ℚ) (k s a : ℕ)
    (hs : s < T) :
    pct_change k (perturbMat P T a0 v) s a = pct_change k P s a := by
  unfold pct_change
  have h1 : ffillMat (perturbMat P T a0 v) s a = ffillMat P s a := by
    unfold ffillMat
    apply ffillCol_congr
    intro e he
    unfold perturbMat
    rw [if_neg]
    rintro ⟨rfl, -⟩
    omega
  have h2 : ffillMat (perturbMat P T a0 v) (s - k) a = ffillMat P (s - k) a := by
    unfold ffillMat
    apply ffillCol_congr
    intro e he
    unfold perturbMat
    rw [if_neg]
    rintro ⟨rfl, -⟩
    omega
  rw [h1, h2]

theorem strategy_ret_perturb_price (m : ℕ) (P : QMat)
    (Fs : List (String × QMat)) (ws : Weights) (R N T a0 : ℕ) (v : ℚ) (s : ℕ)
    (hs : s < T) :
    strategy_daily_ret m (perturbMat P T a0 v) Fs ws R N s =
      strategy_daily_ret m P Fs ws R N s := by
  unfold strategy_daily_ret
  congr 1
  apply List.map_congr_left
  intro a ha
  have hdr : daily_returns (perturbMat P T a0 v) s a = daily_returns P s a := by
    unfold daily_returns
    exact pct_change_perturb_early P T a0 v 1 s a hs
  rw [hdr]

theorem net_ret_perturb_price (m : ℕ) (P : QMat) (Fs : List (String × QMat))
    (ws : Weights) (R N T a0 : ℕ) (v fee : ℚ) (s : ℕ) (hs : s < T) :
    net_strategy_ret m (perturbMat P T a0 v) Fs ws R N fee s =
      net_strategy_ret m P Fs ws R N fee s := by
  unfold net_strategy_ret
  rw [strategy_ret_perturb_price m P Fs ws R N T a0 v s hs]

theorem alookup_factors_agree (T : ℕ) (Fs Gs : List (String × QMat))
    (h : FactorsAgreeOff T Fs Gs) (f : String) :
    (alookup f Fs = none ∧ alookup f Gs = none) ∨
      ∃ F G, alookup f Fs = some F ∧ alookup f Gs = some G ∧
        ∀ d a, d ≠ T → F d a = G d a := by
  induction h with
  | nil => exact Or.inl ⟨rfl, rfl⟩
  | cons hpq hrest ih =>
    rename_i p q ps qs
    obtain ⟨hname, hentries⟩ := hpq
    by_cases hf : p.1 = f
    · refine Or.inr ⟨p.2, q.2, ?_, ?_, hentries⟩
      · show (if p.1 = f then some p.2 else alookup f ps) = some p.2
        rw [if_pos hf]
      · show (if q.1 = f then some q.2 else alookup f qs) = some q.2
        rw [if_pos (hname ▸ hf)]
    · have hqf : ¬q.1 = f := hname ▸ hf
      have hL : alookup f (p :: ps) = alookup f ps := by
        show (if p.1 = f then some p.2 else alookup f ps) = alookup f ps
        rw [if_neg hf]
      have hG : alookup f (q :: qs) = alookup f qs := by
        show (if q.1 = f then some q.2 else alookup f qs) = alookup f qs
        rw [if_neg hqf]
      rw [hL, hG]
      exact ih

theorem combined_score_agree (T : ℕ) (Fs Gs : List (String × QMat))
    (ws : Weights) (h : FactorsAgreeOff T Fs Gs) (d a : ℕ) (hd : d ≠ T) :
    combined_score Fs ws d a = combined_score Gs ws d a := by
  unfold combined_score
  apply List.foldl_ext
  intro acc p hp
  rcases alookup_factors_agree T Fs Gs h p.1 with ⟨h1, h2⟩ | ⟨F, G, h1, h2, h3⟩
  · rw [h1, h2]
  · rw [h1, h2]
    show (match acc, F d a with
      | some x, some y => some (x + y * p.2)
      | _, _ => none) =
      (match acc, G d a with
      | some x, some y => some (x + y * p.2)
      | _, _ => none)
    rw [h3 d a hd]

theorem positions0_agree (m T : ℕ) (Fs Gs : List (String × QMat))
    (ws : Weights) (h : FactorsAgreeOff T Fs Gs) (R N d a : ℕ) (hd : d ≠ T) :
    positions0 m (combined_score Fs ws) R N d a =
      positions0 m (combined_score Gs ws) R N d a := by
  unfold positions0
  have hrow : (fun b => combined_score Fs ws d b) =
      (fun b => combined_score Gs ws d b) :=
    funext (fun b => combined_score_agree T Fs Gs ws h d b hd)
  rw [hrow]

theorem find?_congr_mem {α : Type} (l : List α) (p q : α → Bool)
    (h : ∀ x ∈ l, p x = q x) : l.find? p = l.find? q := by
  induction l with
  | nil => rfl
  | cons x xs ih =>
    by_cases hx : q x = true
    · rw [List.find?_cons_of_pos _ (by rw [h x (List.mem_cons_self _ _)]; exact hx),
        List.find?_cons_of_pos _ hx]
    · rw [List.find?_cons_of_neg _ (by rw [h x (List.mem_cons_self _ _)]; simpa using hx),
        List.find?_cons_of_neg _ (by simpa using hx)]
      exact ih (fun y hy => h y (List.mem_cons_of_mem _ hy))

theorem ffillLimited_congr (L : ℕ) (raw1 raw2 : ℕ → ℕ → ℚ) (d a : ℕ)
    (h : ∀ e, e ≤ d → ∀ b, raw1 e b = raw2 e b) :
    ffillLimited L raw1 d a = ffillLimited L raw2 d a := by
  unfold ffillLimited
  rw [h d (le_refl d) a]
  have hfind : (List.range' 1 L).find?
        (fun j => decide (j ≤ d ∧ raw1 (d - j) a ≠ 0)) =
      (List.range' 1 L).find?
        (fun j => decide (j ≤ d ∧ raw2 (d - j) a ≠ 0)) := by
    apply find?_congr_mem
    intro j hj
    rw [h (d - j) (Nat.sub_le d j) a]
  rcases hf : (List.range' 1 L).find?
      (fun j => decide (j ≤ d ∧ raw2 (d - j) a ≠ 0)) with _ | j
  · rw [hfind, hf]
  · rw [hfind, hf]
    by_cases hz : raw2 d a ≠ 0
    · rw [if_pos hz, if_pos hz]
    · rw [if_neg hz, if_neg hz]
      show raw1 (d - j) a = raw2 (d - j) a
      exact h (d - j) (Nat.sub_le d j) a

theorem positions_agree (m T : ℕ) (Fs Gs : List (String × QMat))
    (ws : Weights) (h : FactorsAgreeOff T Fs Gs) (R N d a : ℕ) (hd : d < T) :
    positions m (combined_score Fs ws) R N d a =
      positions m (combined_score Gs ws) R N d a := by
  unfold positions
  apply ffillLimited_congr
  intro e he b
  exact positions0_agree m T Fs Gs ws h R N e b (by omega)

theorem strategy_ret_factors_agree (m : ℕ) (P : QMat)
    (Fs Gs : List (String × QMat)) (ws : Weights) (R N T : ℕ)
    (h : FactorsAgreeOff T Fs Gs) (s : ℕ) (hs : s ≤ T) :
    strategy_daily_ret m P Fs ws R N s = strategy_daily_ret m P Gs ws R N s := by
  unfold strategy_daily_ret
  congr 1
  apply List.map_congr_left
  intro a ha
  have hlag : lagged_positions (positions m (combined_score Fs ws) R N) s a =
      lagged_positions (positions m (combined_score Gs ws) R N) s a := by
    unfold lagged_positions
    rcases Nat.eq_zero_or_pos s with rfl | hpos
    · rfl
    · rw [if_neg (by omega), if_neg (by omega)]
      congr 1
      exact positions_agree m T Fs Gs ws h R N (s - 1) a (by omega)
  rw [hlag]

/-- C1 amended: positions are lagged one day (`positions.shift(1)`), so (a)
perturbing the price on date T leaves the net realized strategy return
unchanged on every date before T — the day-T return itself necessarily reads
the day-T price through `pct_change` — and (b) perturbing the factor scores
on date T leaves the pre-fee strategy return unchanged on every date up to
and including T: day-T decisions are realized only from day T+1 onward. -/
theorem run_backtest_lag_invariant (m : ℕ) (P : QMat)
    (Fs Gs : List (String × QMat)) (ws : Weights) (R N T a0 : ℕ) (v fee : ℚ) :
    (∀ s, s < T → net_strategy_ret m (perturbMat P T a0 v) Fs ws R N fee s =
        net_strategy_ret m P Fs ws R N fee s) ∧
    (FactorsAgreeOff T Fs Gs → ∀ s, s ≤ T →
      strategy_daily_ret m P Fs ws R N s = strategy_daily_ret m P Gs ws R N s) :=
  ⟨fun s hs => net_ret_perturb_price m P Fs ws R N T a0 v fee s hs,
   fun h s hs => strategy_ret_factors_agree m P Fs Gs ws R N T h s hs⟩

theorem run_backtest_lag_invariant_witness :
    (net_strategy_ret 1 (perturbMat c1_prices 2 0 2) c1_Fs c1_ws 2 1 0 1 =
      net_strategy_ret 1 c1_prices c1_Fs c1_ws 2 1 0 1) ∧
    (strategy_daily_ret 1 c1_prices c1_Fs c1_ws 2 1 2 =
      strategy_daily_ret 1 c1_prices c1_Gs c1_ws 2 1 2) :=
  ⟨(run_backtest_lag_invariant 1 c1_prices c1_Fs c1_Gs c1_ws 2 1 2 0 2 0).1 1
      (by norm_num),
   (run_backtest_lag_invariant 1 c1_prices c1_Fs c1_Gs c1_ws 2 1 2 0 2 0).2
      (by
        unfold FactorsAgreeOff c1_Fs c1_Gs
        refine List.Forall₂.cons ⟨rfl, ?_⟩ List.Forall₂.nil
        intro d a hd
        simp [perturbMat, hd])
      2 (le_refl 2)⟩
